import Mathlib

/-!
Verification of the snapshot/history/query engine of the RustProcSentry
task manager (src/process_handler.rs, src/cli.rs, src/ui.rs,
src/data_structures.rs) against its natural-language specification.

Machine floats (`f32`) are modelled by `F32`: finite values carry an exact
rational payload (rounding is not modelled, the two signed zeros are
conflated), and the three non-finite values follow the IEEE-754 rules for
propagation and comparison.  Machine integers (`i32`, `u64`) are modelled
by `Int`/`Nat`; none of the verified code paths can overflow them.
Strings are modelled as `List Char` (the repository only manipulates
process names and queries, compared byte-wise / code-point-wise, which
agree on ASCII).
-/

namespace ProcSentry

/-- Three-way comparison by a linearly ordered key, the shape of Rust's
`Ord::cmp` / `PartialOrd::partial_cmp` on primitive types. -/
def keyCmp {β : Type} [LinearOrder β] (x y : β) : Ordering :=
  if x < y then Ordering.lt else if x = y then Ordering.eq else Ordering.gt

/-- Model of an IEEE-754 `f32` value: exact rational payload for finite
values, plus the two infinities and NaN. -/
inductive F32 where
  | finite (q : ℚ)
  | posInf
  | negInf
  | nan
  deriving DecidableEq, Repr

/-- IEEE-754 absolute value (`f32::abs`). -/
def F32.abs : F32 → F32
  | .finite q => .finite |q|
  | .posInf => .posInf
  | .negInf => .posInf
  | .nan => .nan

/-- IEEE-754 subtraction (exact on finite values). -/
def F32.sub : F32 → F32 → F32
  | .nan, _ => .nan
  | _, .nan => .nan
  | .posInf, .posInf => .nan
  | .posInf, _ => .posInf
  | .negInf, .negInf => .nan
  | .negInf, _ => .negInf
  | .finite _, .posInf => .negInf
  | .finite _, .negInf => .posInf
  | .finite a, .finite b => .finite (a - b)

/-- IEEE-754 division (exact on finite values; division by zero yields
NaN for `0/0` and a signed infinity otherwise). -/
def F32.div : F32 → F32 → F32
  | .nan, _ => .nan
  | _, .nan => .nan
  | .posInf, .posInf => .nan
  | .posInf, .negInf => .nan
  | .negInf, .posInf => .nan
  | .negInf, .negInf => .nan
  | .posInf, .finite b => if 0 ≤ b then .posInf else .negInf
  | .negInf, .finite b => if 0 ≤ b then .negInf else .posInf
  | .finite _, .posInf => .finite 0
  | .finite _, .negInf => .finite 0
  | .finite a, .finite b =>
      if b = 0 then
        if a = 0 then .nan else if 0 < a then .posInf else .negInf
      else .finite (a / b)

/-- IEEE-754 multiplication (exact on finite values; `inf * 0` is NaN). -/
def F32.mul : F32 → F32 → F32
  | .nan, _ => .nan
  | _, .nan => .nan
  | .posInf, .posInf => .posInf
  | .posInf, .negInf => .negInf
  | .negInf, .posInf => .negInf
  | .negInf, .negInf => .posInf
  | .posInf, .finite b => if b = 0 then .nan else if 0 < b then .posInf else .negInf
  | .negInf, .finite b => if b = 0 then .nan else if 0 < b then .negInf else .posInf
  | .finite a, .posInf => if a = 0 then .nan else if 0 < a then .posInf else .negInf
  | .finite a, .negInf => if a = 0 then .nan else if 0 < a then .negInf else .posInf
  | .finite a, .finite b => .finite (a * b)

/-- Rust's `PartialOrd::partial_cmp` on `f32`: `none` when either operand
is NaN, otherwise the total comparison with `-inf < finite < +inf`. -/
def F32.partialCmp : F32 → F32 → Option Ordering
  | .nan, _ => none
  | _, .nan => none
  | .negInf, .negInf => some Ordering.eq
  | .negInf, _ => some Ordering.lt
  | _, .negInf => some Ordering.gt
  | .posInf, .posInf => some Ordering.eq
  | .finite _, .posInf => some Ordering.lt
  | .posInf, .finite _ => some Ordering.gt
  | .finite a, .finite b => some (keyCmp a b)

/-- Rust's `>` on `f32` (false whenever either operand is NaN). -/
def F32.gtb (a b : F32) : Bool := a.partialCmp b = some Ordering.gt

/-- Total extension of `partialCmp`: identical to it on every non-NaN
pair (`-inf < finite < +inf`), with NaN placed above every other value —
the one consistent end the spec suggests for a hardened comparator. -/
def F32.totalCmp : F32 → F32 → Ordering
  | .nan, .nan => Ordering.eq
  | .nan, _ => Ordering.gt
  | _, .nan => Ordering.lt
  | .negInf, .negInf => Ordering.eq
  | .negInf, _ => Ordering.lt
  | _, .negInf => Ordering.gt
  | .posInf, .posInf => Ordering.eq
  | .finite _, .posInf => Ordering.lt
  | .posInf, .finite _ => Ordering.gt
  | .finite a, .finite b => keyCmp a b

/-- The constant `std::f32::EPSILON = 2^(-23)` used by the spike rule. -/
def f32Epsilon : F32 := .finite (1 / 8388608)

/-- The constant `SPIKE_THRESHOLD: f32 = 20.0` of src/ui.rs. -/
def spikeThreshold : F32 := .finite 20

/-- The `ProcessInfo` record of src/data_structures.rs. -/
structure ProcessInfo where
  pid : Int
  user : List Char
  cpu_usage : F32
  memory_usage : Nat
  command : List Char
  deriving DecidableEq, Repr

/-- One push into a history buffer, as done twice inside
`ProcessHandler::refresh` (src/process_handler.rs): `push` the value, then
`remove(0)` when the length exceeds 100. -/
def pushHistory {α : Type} (h : List α) (v : α) : List α :=
  let h2 := h ++ [v]
  if 100 < h2.length then h2.tail else h2

/-- The memory percentage computed by `ProcessHandler::refresh`:
`(used_memory / total_memory) * 100.0`, in `f32` arithmetic, with no
guard on `total_memory == 0`. -/
def memPercent (total used : Nat) : F32 :=
  (F32.div (.finite (used : ℚ)) (.finite (total : ℚ))).mul (.finite 100)

/-- The history-owning part of `ProcessHandler`'s state (the two rolling
buffers; the `sysinfo::System` handle is the external OS layer). -/
structure PHState where
  cpu_usage_history : List F32
  memory_usage_history : List F32
  deriving DecidableEq, Repr

/-- State after `ProcessHandler::new()`: both histories empty. -/
def PHState.init : PHState := ⟨[], []⟩

/-- The history mutation performed by `ProcessHandler::refresh`: the OS
readings (global cpu percentage, total and used memory) are inputs; both
buffers receive exactly one push. -/
def PHState.refresh (s : PHState) (cpu : F32) (total used : Nat) : PHState :=
  { cpu_usage_history := pushHistory s.cpu_usage_history cpu
    memory_usage_history := pushHistory s.memory_usage_history (memPercent total used) }

/-- The operations of `ProcessHandler` that take `&mut self` or `&self`:
only `refresh` touches the history buffers;  `refresh_processes` and
`kill_process` leave them unchanged. -/
inductive PHOp where
  | refresh (cpu : F32) (total used : Nat)
  | refreshProcesses
  | killProcess (pid : Int)

/-- Effect of one `ProcessHandler` operation on the history state. -/
def PHState.step (s : PHState) : PHOp → PHState
  | .refresh cpu total used => s.refresh cpu total used
  | .refreshProcesses => s
  | .killProcess _ => s

/-- History state after a sequence of operations on a fresh handler. -/
def PHState.run (ops : List PHOp) : PHState :=
  ops.foldl PHState.step PHState.init

/-- The percentage change computed inside `CpuUsageChart::draw`
(src/ui.rs): `(current - previous) / previous.abs() * 100.0` when
`previous.abs() > f32::EPSILON`, else `0.0`. -/
def percentageChange (previous current : F32) : F32 :=
  if (F32.abs previous).gtb f32Epsilon then
    ((current.sub previous).div previous.abs).mul (.finite 100)
  else .finite 0

/-- The spike classification of src/ui.rs:
`percentage_change.abs() > SPIKE_THRESHOLD`. -/
def isSpike (previous current threshold : F32) : Bool :=
  (percentageChange previous current).abs.gtb threshold

/-- ASCII lowering of a string, modelling `str::to_lowercase` on the
ASCII process names and queries the program handles. -/
def toLowerStr (s : List Char) : List Char := s.map Char.toLower

/-- The decimal digit character for `d < 10`. -/
def digitChar (d : Nat) : Char := Char.ofNat (48 + d)

/-- Decimal digits of a natural number, most significant first,
modelling `u32::to_string` and the digits part of `i32::to_string`. -/
def natChars (n : Nat) : List Char :=
  if n < 10 then [digitChar n]
  else natChars (n / 10) ++ [digitChar (n % 10)]
  decreasing_by exact Nat.div_lt_self (by omega) (by omega)

/-- Decimal string of an `i32` (`pid.to_string()` in src/cli.rs). -/
def intChars (n : Int) : List Char :=
  if n < 0 then '-' :: natChars n.natAbs else natChars n.natAbs

/-- Substring test, modelling Rust's `str::contains` with a string
needle. -/
def substr (needle : List Char) : List Char → Bool
  | [] => needle.isEmpty
  | c :: rest => needle.isPrefixOf (c :: rest) || substr needle rest

/-- The per-process filter predicate of `run_cli` (src/cli.rs) and
`TaskManager::apply_filter_and_sort` (src/ui.rs), applied to an already
lowercased query: `p.pid.to_string().contains(&query) ||
p.command.to_lowercase().contains(&query)`. -/
def matchesQuery (query : List Char) (p : ProcessInfo) : Bool :=
  substr query (intChars p.pid) || substr query (toLowerStr p.command)

/-- The filter stage of `run_cli`: an absent filter passes the snapshot
through; a present filter is lowercased once and each sample is kept when
either field matches. -/
def applyFilter (filter : Option (List Char)) (ps : List ProcessInfo) : List ProcessInfo :=
  match filter with
  | none => ps
  | some q => ps.filter (matchesQuery (toLowerStr q))

/-- Sort order (src/ui.rs `SortOrder`; `"asc" / "desc"` in src/cli.rs). -/
inductive SortOrder where
  | Ascending
  | Descending
  deriving DecidableEq, Repr

/-- Sort field (src/ui.rs `SortField`; the `sort_by` strings of
src/cli.rs). -/
inductive SortField where
  | PID
  | CPU
  | Memory
  | Command
  deriving DecidableEq, Repr

/-- The comparator each `sort_by` branch of src/cli.rs and src/ui.rs
passes to the stable slice sort.  The CPU branches call
`partial_cmp(..).unwrap()`: the `Option` records whether the comparison
faults (`none` = the `unwrap` panic on NaN).  Descending branches flip
the arguments of the ascending comparator, exactly as in the source. -/
def sortCmp (f : SortField) (ord : SortOrder) (a b : ProcessInfo) : Option Ordering :=
  match f, ord with
  | .PID, .Ascending => some (keyCmp a.pid b.pid)
  | .PID, .Descending => some (keyCmp b.pid a.pid)
  | .CPU, .Ascending => F32.partialCmp a.cpu_usage b.cpu_usage
  | .CPU, .Descending => F32.partialCmp b.cpu_usage a.cpu_usage
  | .Memory, .Ascending => some (keyCmp a.memory_usage b.memory_usage)
  | .Memory, .Descending => some (keyCmp b.memory_usage a.memory_usage)
  | .Command, .Ascending => some (keyCmp a.command b.command)
  | .Command, .Descending => some (keyCmp b.command a.command)

/-- Stable insertion of one element under a possibly faulting comparator:
the element goes in front of the first resident that is not strictly
smaller, and `none` propagates a comparator fault. -/
def oInsert {α : Type} (cmp : α → α → Option Ordering) (x : α) : List α → Option (List α)
  | [] => some [x]
  | y :: ys =>
    match cmp x y with
    | none => none
    | some Ordering.gt => (oInsert cmp x ys).map (fun l => y :: l)
    | some _ => some (x :: y :: ys)

/-- Stable sort under a possibly faulting comparator.  Rust's
`slice::sort_by` is a stable sort; a stable sort's output is uniquely
determined by the comparator, so stable insertion sort is a faithful
model of it, and `none` models the comparator panic reaching the sort. -/
def oSort {α : Type} (cmp : α → α → Option Ordering) : List α → Option (List α)
  | [] => some []
  | x :: xs => (oSort cmp xs).bind (oInsert cmp x)

/-- The sort stage of `run_cli` / `apply_filter_and_sort` for a given
field and order. -/
def applySort (f : SortField) (ord : SortOrder) (ps : List ProcessInfo) :
    Option (List ProcessInfo) :=
  oSort (sortCmp f ord) ps

/-- Totalised comparator for each field and order: identical to `sortCmp`
except that CPU values are compared by `F32.totalCmp`, which extends the
code's `partial_cmp` order (`-inf < finite < +inf`) by placing NaN above
everything.  On every pair whose cpu values are not NaN it returns
exactly what `sortCmp` wraps in `some` — including infinities. -/
def totCmp (f : SortField) (ord : SortOrder) (a b : ProcessInfo) : Ordering :=
  match f, ord with
  | .PID, .Ascending => keyCmp a.pid b.pid
  | .PID, .Descending => keyCmp b.pid a.pid
  | .CPU, .Ascending => F32.totalCmp a.cpu_usage b.cpu_usage
  | .CPU, .Descending => F32.totalCmp b.cpu_usage a.cpu_usage
  | .Memory, .Ascending => keyCmp a.memory_usage b.memory_usage
  | .Memory, .Descending => keyCmp b.memory_usage a.memory_usage
  | .Command, .Ascending => keyCmp a.command b.command
  | .Command, .Descending => keyCmp b.command a.command

/-- The non-strict order induced by a three-way comparator. -/
def cmpLE {α : Type} (cmp : α → α → Ordering) (a b : α) : Prop :=
  cmp a b ≠ Ordering.gt

instance {α : Type} (cmp : α → α → Ordering) : DecidableRel (cmpLE cmp) :=
  fun _ _ => instDecidableNot

/-- Reference stable sort with a total comparator (insertion sort). -/
def sortModel {α : Type} (cmp : α → α → Ordering) (l : List α) : List α :=
  l.insertionSort (cmpLE cmp)

/-- The signal allow-list of the `kill` subcommand (src/cli.rs). -/
inductive Signal where
  | SIGTERM
  | SIGKILL
  | SIGHUP
  deriving DecidableEq, Repr

/-- The signal-name match of src/cli.rs: exactly three recognized names,
everything else is rejected. -/
def parseSignal (s : String) : Option Signal :=
  if s = "SIGTERM" then some .SIGTERM
  else if s = "SIGKILL" then some .SIGKILL
  else if s = "SIGHUP" then some .SIGHUP
  else none

/-- Observable outcome of the `kill` subcommand: exit(1) with a
diagnostic for an unsupported name, or the printed success / failure
message after the one OS call. -/
inductive KillOutcome where
  | exitUnsupported
  | printedSuccess
  | printedFailure (e : Nat)
  deriving DecidableEq, Repr

/-- The `Commands::Kill` branch of `run_cli` (src/cli.rs).  The OS-level
signal-delivery primitive `nix::sys::signal::kill` is the oracle `os`
(errors carry an errno, modelled as `Nat`); the second component records
every call made to it, in order. -/
def runKillCommand (os : Int → Signal → Except Nat Unit) (pid : Int) (signal : String) :
    KillOutcome × List (Int × Signal) :=
  match parseSignal signal with
  | none => (.exitUnsupported, [])
  | some sig =>
    match os pid sig with
    | .ok _ => (.printedSuccess, [(pid, sig)])
    | .error e => (.printedFailure e, [(pid, sig)])

/-- The `ProcessHandler::kill_process` method (src/process_handler.rs):
one `kill(pid, SIGTERM)` OS call; an OS error is wrapped into a message
carrying the pid and the error.  The second component records the calls
made to the OS oracle. -/
def kill_process (os : Int → Signal → Except Nat Unit) (pid : Int) :
    Except (Int × Nat) Unit × List (Int × Signal) :=
  match os pid .SIGTERM with
  | .ok _ => (.ok (), [(pid, .SIGTERM)])
  | .error e => (.error (pid, e), [(pid, .SIGTERM)])

/-! ### Basic lemmas about the comparator and the float model -/

theorem keyCmp_eq_gt {β : Type} [LinearOrder β] {x y : β} :
    keyCmp x y = Ordering.gt ↔ y < x := by
  unfold keyCmp
  rcases lt_trichotomy x y with h | h | h
  · simp [h, asymm h]
  · simp [h, lt_irrefl]
  · simp [h, not_lt_of_gt h, ne_of_gt h]

theorem keyCmp_eq_eq {β : Type} [LinearOrder β] {x y : β} :
    keyCmp x y = Ordering.eq ↔ x = y := by
  unfold keyCmp
  rcases lt_trichotomy x y with h | h | h
  · simp [h, ne_of_lt h]
  · simp [h, lt_irrefl]
  · simp [h, not_lt_of_gt h, ne_of_gt h]

theorem keyCmp_ne_gt {β : Type} [LinearOrder β] {x y : β} :
    keyCmp x y ≠ Ordering.gt ↔ x ≤ y := by
  rw [Ne, keyCmp_eq_gt, not_lt]

theorem keyCmp_swap {β : Type} [LinearOrder β] (x y : β) :
    keyCmp x y = (keyCmp y x).swap := by
  unfold keyCmp
  rcases lt_trichotomy x y with h | h | h
  · simp only [if_pos h, if_neg (asymm h), if_neg (ne_of_gt h)]
    rfl
  · simp only [h, lt_irrefl, if_neg, if_pos rfl, ite_false, ite_true]
    rfl
  · simp only [if_neg (not_lt_of_gt h), if_neg (ne_of_gt h), if_pos h]
    rfl

theorem F32.abs_finite (a : ℚ) : F32.abs (.finite a) = .finite |a| := rfl

theorem F32.sub_finite (a b : ℚ) : F32.sub (.finite a) (.finite b) = .finite (a - b) := rfl

theorem F32.mul_finite (a b : ℚ) : F32.mul (.finite a) (.finite b) = .finite (a * b) := rfl

theorem F32.div_finite (a b : ℚ) (hb : b ≠ 0) :
    F32.div (.finite a) (.finite b) = .finite (a / b) := by
  simp [F32.div, hb]

theorem F32.gtb_finite (a b : ℚ) : F32.gtb (.finite a) (.finite b) = decide (b < a) := by
  have h : F32.partialCmp (.finite a) (.finite b) = some (keyCmp a b) := rfl
  simp only [F32.gtb, h, Option.some.injEq]
  exact decide_eq_decide.mpr keyCmp_eq_gt

/-! ### Claim theorems: float hardening, spike rule, kill validation -/

/-- C1 (code_bug evidence): sorting by the Cpu field faults on a snapshot
containing a NaN sample.  Both `run_cli` (src/cli.rs lines 71-77) and
`apply_filter_and_sort` (src/ui.rs lines 322-332) compare cpu values with
`partial_cmp(..).unwrap()`; `partial_cmp` is `None` on a NaN pair, so the
`unwrap` panics — modelled by the sort evaluating to `none` — instead of
ordering NaN to one consistent end as the spec requires. -/
theorem cpu_sort_faults_on_nan :
    applySort SortField.CPU SortOrder.Ascending
      [⟨7, [], F32.finite 1, 0, []⟩, ⟨8, [], F32.nan, 0, []⟩] = none ∧
    applySort SortField.CPU SortOrder.Descending
      [⟨7, [], F32.finite 1, 0, []⟩, ⟨8, [], F32.nan, 0, []⟩] = none ∧
    F32.partialCmp (F32.finite 1) F32.nan = none ∧
    F32.partialCmp F32.nan (F32.finite 1) = none :=
  ⟨rfl, rfl, rfl, rfl⟩

/-- C3 (code_bug evidence): `ProcessHandler::refresh` has no guard on
`total_memory == 0`: the push into the memory history always happens, and
with `total_memory = used_memory = 0` the pushed value is the NaN produced
by `0.0 / 0.0 * 100.0`, so the buffer is changed, not left alone as the
spec requires. -/
theorem refresh_pushes_memory_on_zero_total :
    (∀ (s : PHState) (cpu : F32) (used : Nat),
        (s.refresh cpu 0 used).memory_usage_history
          = pushHistory s.memory_usage_history (memPercent 0 used)) ∧
    memPercent 0 0 = F32.nan ∧
    (PHState.refresh PHState.init (F32.finite 0) 0 0).memory_usage_history = [F32.nan] := by
  refine ⟨fun s cpu used => rfl, ?_, ?_⟩
  · show (F32.div (.finite ((0 : Nat) : ℚ)) (.finite ((0 : Nat) : ℚ))).mul (.finite 100) = F32.nan
    norm_num [F32.div, F32.mul]
  · show pushHistory [] (memPercent 0 0) = [F32.nan]
    have h : memPercent 0 0 = F32.nan := by
      show (F32.div (.finite ((0 : Nat) : ℚ)) (.finite ((0 : Nat) : ℚ))).mul (.finite 100)
          = F32.nan
      norm_num [F32.div, F32.mul]
    rw [h]
    rfl

/-- C4: the spike classification of src/ui.rs equals, for every pair of
values, the conjunction of `previous.abs() > EPSILON` and the percent
change formula exceeding the threshold strictly; in particular a change of
exactly 20% is not a spike, 21% is, and a zero previous value is never a
spike. -/
theorem spike_classification (previous current : F32) :
    (isSpike previous current spikeThreshold =
      ((F32.abs previous).gtb f32Epsilon &&
        (((current.sub previous).div previous.abs).mul (F32.finite 100)).abs.gtb
          spikeThreshold)) ∧
    isSpike (F32.finite 100) (F32.finite 120) spikeThreshold = false ∧
    isSpike (F32.finite 100) (F32.finite 121) spikeThreshold = true ∧
    isSpike (F32.finite 0) (F32.finite 5) spikeThreshold = false := by
  refine ⟨?_, ?_, ?_, ?_⟩
  · by_cases h : (F32.abs previous).gtb f32Epsilon = true
    · simp [isSpike, percentageChange, h]
    · rw [Bool.not_eq_true] at h
      simp only [isSpike, percentageChange, h, Bool.false_eq_true, if_false, Bool.false_and]
      rw [F32.abs_finite, spikeThreshold, F32.gtb_finite]
      norm_num
  · have hcond : (F32.abs (F32.finite 100)).gtb f32Epsilon = true := by
      rw [F32.abs_finite, f32Epsilon, F32.gtb_finite]
      norm_num
    rw [isSpike, percentageChange, if_pos hcond, F32.abs_finite, F32.sub_finite,
      F32.div_finite _ _ (by norm_num), F32.mul_finite, F32.abs_finite, spikeThreshold,
      F32.gtb_finite]
    norm_num
  · have hcond : (F32.abs (F32.finite 100)).gtb f32Epsilon = true := by
      rw [F32.abs_finite, f32Epsilon, F32.gtb_finite]
      norm_num
    rw [isSpike, percentageChange, if_pos hcond, F32.abs_finite, F32.sub_finite,
      F32.div_finite _ _ (by norm_num), F32.mul_finite, F32.abs_finite, spikeThreshold,
      F32.gtb_finite]
    norm_num
  · have hcond : ¬((F32.abs (F32.finite 0)).gtb f32Epsilon = true) := by
      rw [F32.abs_finite, f32Epsilon, F32.gtb_finite]
      norm_num
    rw [isSpike, percentageChange, if_neg hcond, F32.abs_finite, spikeThreshold,
      F32.gtb_finite]
    norm_num

/-- C7: an unrecognized signal name makes the kill subcommand exit with a
diagnostic and an empty OS-call trace; the allow-list is exactly SIGTERM,
SIGKILL, SIGHUP. -/
theorem kill_rejects_unsupported_signal (os : Int → Signal → Except Nat Unit)
    (pid : Int) (signal : String) (h : parseSignal signal = none) :
    runKillCommand os pid signal = (KillOutcome.exitUnsupported, []) ∧
    (∀ s : String,
        parseSignal s = none ↔ (s ≠ "SIGTERM" ∧ s ≠ "SIGKILL" ∧ s ≠ "SIGHUP")) := by
  constructor
  · unfold runKillCommand
    rw [h]
  · intro s
    unfold parseSignal
    split_ifs with h1 h2 h3 <;> simp_all

/-- C7 witness: `kill` with the unrecognized name SIGBOGUS exits
unsupported and never reaches the OS oracle. -/
theorem kill_rejects_unsupported_signal_witness :
    runKillCommand (fun _ _ => Except.ok ()) 1 "SIGBOGUS"
      = (KillOutcome.exitUnsupported, []) :=
  (kill_rejects_unsupported_signal (fun _ _ => Except.ok ()) 1 "SIGBOGUS" rfl).1

/-- C8: on a recognized signal name the kill subcommand makes exactly one
OS call, reports success when the OS call succeeds and surfaces the OS
error otherwise; `ProcessHandler::kill_process` likewise makes exactly one
SIGTERM call and wraps the OS error with the pid. -/
theorem kill_delegates_once (os : Int → Signal → Except Nat Unit) (pid : Int)
    (signal : String) (sig : Signal) (h : parseSignal signal = some sig) :
    runKillCommand os pid signal =
      ((match os pid sig with
        | .ok _ => KillOutcome.printedSuccess
        | .error e => KillOutcome.printedFailure e), [(pid, sig)]) ∧
    (∀ (os2 : Int → Signal → Except Nat Unit) (pid2 : Int),
        kill_process os2 pid2 =
          ((match os2 pid2 Signal.SIGTERM with
            | .ok _ => Except.ok ()
            | .error e => Except.error (pid2, e)), [(pid2, Signal.SIGTERM)])) := by
  constructor
  · unfold runKillCommand
    rw [h]
    show (match os pid sig with
          | Except.ok _ => (KillOutcome.printedSuccess, [(pid, sig)])
          | Except.error e => (KillOutcome.printedFailure e, [(pid, sig)])) = _
    cases os pid sig <;> rfl
  · intro os2 pid2
    unfold kill_process
    cases os2 pid2 Signal.SIGTERM <;> rfl

/-- C8 witness: killing pid 5 with SIGTERM under an always-succeeding OS
oracle reports success with a single OS call. -/
theorem kill_delegates_once_witness :
    runKillCommand (fun _ _ => Except.ok ()) 5 "SIGTERM"
      = (KillOutcome.printedSuccess, [(5, Signal.SIGTERM)]) :=
  (kill_delegates_once (fun _ _ => Except.ok ()) 5 "SIGTERM" Signal.SIGTERM rfl).1

/-- C6 counterexample: the claim quantifies over every snapshot and field,
but sorting by Cpu over a snapshot containing a NaN cpu value faults (the
comparator unwrap panics, modelled by `none`), so no sorted result exists
there. -/
theorem sort_total_claim_fails_on_nan :
    applySort SortField.CPU SortOrder.Ascending
      [⟨1, [], F32.nan, 0, []⟩, ⟨2, [], F32.finite 2, 0, []⟩] = none := rfl

/-! ### History buffer: bounded FIFO behaviour -/

/-- Closed form of a fold of `pushHistory` over any starting buffer that
respects the capacity: the result is the last 100 elements of the
concatenation. -/
theorem foldl_pushHistory_eq {α : Type} (vs : List α) :
    ∀ h : List α, h.length ≤ 100 →
      List.foldl pushHistory h vs = (h ++ vs).drop (h.length + vs.length - 100) := by
  induction vs with
  | nil =>
    intro h hh
    simp [Nat.sub_eq_zero_of_le hh]
  | cons v vs ih =>
    intro h hh
    rw [List.foldl_cons]
    rcases Nat.lt_or_ge h.length 100 with hlt | hge
    · have hp : pushHistory h v = h ++ [v] := by
        simp only [pushHistory, List.length_append, List.length_singleton]
        rw [if_neg (by omega)]
      rw [hp, ih (h ++ [v]) (by simp only [List.length_append, List.length_singleton]; omega)]
      have hc : (h ++ [v]).length + vs.length - 100 = h.length + (v :: vs).length - 100 := by
        simp only [List.length_append, List.length_singleton, List.length_cons, List.length_nil]
        omega
      rw [List.append_assoc, List.singleton_append, hc]
    · have h100 : h.length = 100 := le_antisymm hh hge
      obtain ⟨x, t, rfl⟩ : ∃ x t, h = x :: t := by
        cases h with
        | nil => simp at h100
        | cons a t => exact ⟨a, t, rfl⟩
      have ht : t.length = 99 := by
        simp only [List.length_cons] at h100
        omega
      have hp : pushHistory (x :: t) v = t ++ [v] := by
        simp only [pushHistory, List.cons_append, List.length_cons, List.length_append,
          List.length_singleton]
        rw [if_pos (by omega)]
        rfl
      rw [hp, ih (t ++ [v]) (by simp only [List.length_append, List.length_singleton]; omega)]
      have hlc : (t ++ [v]).length + vs.length - 100 = vs.length := by
        simp only [List.length_append, List.length_singleton, List.length_cons, List.length_nil]
        omega
      have hrc : (x :: t).length + (v :: vs).length - 100 = vs.length + 1 := by
        simp only [List.length_cons]
        omega
      rw [List.append_assoc, List.singleton_append, List.cons_append, hlc, hrc,
        List.drop_succ_cons]

/-- C2: pushing `100 + k` values through the refresh push-and-trim yields
exactly the last 100 values in push order; the length never exceeds 100
after any sequence of pushes; and pushing `1..120` yields the 100-element
sequence `21..120`. -/
theorem history_buffer_fifo {α : Type} (vs : List α) (hk : 100 ≤ vs.length) :
    (List.foldl pushHistory ([] : List α) vs).length = 100 ∧
    List.foldl pushHistory ([] : List α) vs = vs.drop (vs.length - 100) ∧
    (∀ ws : List α, (List.foldl pushHistory ([] : List α) ws).length ≤ 100) ∧
    List.foldl pushHistory ([] : List Nat) ((List.range 120).map (· + 1))
      = (List.range 100).map (· + 21) := by
  have hbase : List.foldl pushHistory ([] : List α) vs = vs.drop (vs.length - 100) := by
    rw [foldl_pushHistory_eq vs [] (by simp)]
    simp
  refine ⟨?_, hbase, ?_, ?_⟩
  · rw [hbase, List.length_drop]
    omega
  · intro ws
    rw [foldl_pushHistory_eq ws [] (by simp), List.length_drop]
    simp only [List.nil_append, List.length_nil, Nat.zero_add]
    omega
  · rw [foldl_pushHistory_eq _ [] (by simp)]
    decide

/-- C2 witness: pushing the 120 values `1..120` leaves exactly 100
elements in the buffer. -/
theorem history_buffer_fifo_witness :
    (List.foldl pushHistory ([] : List Nat) ((List.range 120).map (· + 1))).length = 100 :=
  (history_buffer_fifo ((List.range 120).map (· + 1))
    (by simp)).1

/-- The invariant `ProcessHandler` maintains on its two buffers. -/
def PHInv (s : PHState) : Prop :=
  s.cpu_usage_history.length = s.memory_usage_history.length ∧
    s.cpu_usage_history.length ≤ 100

/-- One push extends a within-capacity buffer by one element, saturating
at the capacity. -/
theorem pushHistory_length {α : Type} (h : List α) (v : α) (hh : h.length ≤ 100) :
    (pushHistory h v).length = min (h.length + 1) 100 := by
  simp only [pushHistory, List.length_append, List.length_singleton]
  rcases Nat.lt_or_ge h.length 100 with hlt | hge
  · rw [if_neg (by omega)]
    simp only [List.length_append, List.length_singleton]
    omega
  · have h100 : h.length = 100 := le_antisymm hh hge
    rw [if_pos (by omega), List.length_tail]
    simp only [List.length_append, List.length_singleton]
    omega

/-- Every `ProcessHandler` operation preserves the buffer invariant. -/
theorem step_preserves_inv (s : PHState) (op : PHOp) (hs : PHInv s) :
    PHInv (s.step op) := by
  obtain ⟨heq, hle⟩ := hs
  cases op with
  | refresh cpu total used =>
    constructor
    · show (pushHistory s.cpu_usage_history cpu).length
        = (pushHistory s.memory_usage_history (memPercent total used)).length
      rw [pushHistory_length _ _ hle, pushHistory_length _ _ (heq ▸ hle), heq]
    · show (pushHistory s.cpu_usage_history cpu).length ≤ 100
      rw [pushHistory_length _ _ hle]
      omega
  | refreshProcesses => exact ⟨heq, hle⟩
  | killProcess pid => exact ⟨heq, hle⟩

/-- The invariant holds after any operation sequence from a fresh state. -/
theorem run_inv (ops : List PHOp) : PHInv (PHState.run ops) := by
  suffices hgen : ∀ (l : List PHOp) (s : PHState), PHInv s → PHInv (l.foldl PHState.step s) by
    exact hgen ops PHState.init ⟨rfl, by simp [PHState.init]⟩
  intro l
  induction l with
  | nil => intro s hs; exact hs
  | cons op l ih =>
    intro s hs
    exact ih (s.step op) (step_preserves_inv s op hs)

/-- C10: the cpu and memory histories start empty, stay equal in length
and bounded by 100 after any sequence of handler operations, and each
refresh extends both by exactly one element, saturating at 100. -/
theorem histories_same_length (ops : List PHOp) :
    (PHState.run ops).cpu_usage_history.length
      = (PHState.run ops).memory_usage_history.length ∧
    (PHState.run ops).cpu_usage_history.length ≤ 100 ∧
    PHState.init.cpu_usage_history = [] ∧
    PHState.init.memory_usage_history = [] ∧
    (∀ (cpu : F32) (total used : Nat),
      (PHState.run (ops ++ [PHOp.refresh cpu total used])).cpu_usage_history.length
          = min ((PHState.run ops).cpu_usage_history.length + 1) 100 ∧
      (PHState.run (ops ++ [PHOp.refresh cpu total used])).memory_usage_history.length
          = min ((PHState.run ops).memory_usage_history.length + 1) 100) := by
  obtain ⟨heq, hle⟩ := run_inv ops
  refine ⟨heq, hle, rfl, rfl, ?_⟩
  intro cpu total used
  have hrun : PHState.run (ops ++ [PHOp.refresh cpu total used])
      = (PHState.run ops).step (PHOp.refresh cpu total used) := by
    unfold PHState.run
    rw [List.foldl_append]
    rfl
  constructor
  · rw [hrun]
    exact pushHistory_length _ _ hle
  · rw [hrun]
    exact pushHistory_length _ _ (heq ▸ hle)

/-! ### Sorting: the faulting sort agrees with the stable reference sort
on comparable inputs, which is sorted, a permutation, and stable -/

theorem F32.totalCmp_swap (a b : F32) : F32.totalCmp a b = (F32.totalCmp b a).swap := by
  cases a <;> cases b <;> first | rfl | exact keyCmp_swap _ _

theorem F32.totalCmp_ne_gt_trans (a b c : F32) (h1 : F32.totalCmp a b ≠ Ordering.gt)
    (h2 : F32.totalCmp b c ≠ Ordering.gt) : F32.totalCmp a c ≠ Ordering.gt := by
  cases a <;> cases b <;> cases c <;>
    simp_all only [F32.totalCmp, keyCmp_ne_gt, ne_eq, not_false_eq_true, not_true_eq_false]
  exact le_trans h1 h2

/-- On a non-NaN pair the code's `partial_cmp` is defined and agrees with
the total comparator, also on infinities. -/
theorem F32.partialCmp_eq_totalCmp (a b : F32) (ha : a ≠ F32.nan) (hb : b ≠ F32.nan) :
    F32.partialCmp a b = some (F32.totalCmp a b) := by
  cases a <;> cases b <;> first | rfl | simp_all

theorem totCmp_swap (f : SortField) (ord : SortOrder) (a b : ProcessInfo) :
    totCmp f ord a b = (totCmp f ord b a).swap := by
  cases f <;> cases ord <;>
    first
      | exact keyCmp_swap _ _
      | exact F32.totalCmp_swap _ _

theorem totCmp_trans (f : SortField) (ord : SortOrder) (a b c : ProcessInfo)
    (h1 : cmpLE (totCmp f ord) a b) (h2 : cmpLE (totCmp f ord) b c) :
    cmpLE (totCmp f ord) a c := by
  cases f <;> cases ord <;>
    first
      | exact F32.totalCmp_ne_gt_trans _ _ _ h1 h2
      | exact F32.totalCmp_ne_gt_trans _ _ _ h2 h1
      | (simp only [cmpLE, totCmp, keyCmp_ne_gt] at h1 h2 ⊢
         first
           | exact le_trans h1 h2
           | exact le_trans h2 h1)

theorem sortCmp_desc_flip (f : SortField) (a b : ProcessInfo) :
    sortCmp f SortOrder.Descending a b = sortCmp f SortOrder.Ascending b a := by
  cases f <;> rfl

theorem sortCmp_eq_totCmp (f : SortField) (ord : SortOrder) (a b : ProcessInfo)
    (ha : f = SortField.CPU → a.cpu_usage ≠ F32.nan)
    (hb : f = SortField.CPU → b.cpu_usage ≠ F32.nan) :
    sortCmp f ord a b = some (totCmp f ord a b) := by
  cases f <;> cases ord <;>
    first
      | rfl
      | exact F32.partialCmp_eq_totalCmp _ _ (ha rfl) (hb rfl)
      | exact F32.partialCmp_eq_totalCmp _ _ (hb rfl) (ha rfl)

theorem sortModel_sorted {α : Type} (cmp : α → α → Ordering)
    (hswap : ∀ a b, cmp a b = (cmp b a).swap)
    (htrans : ∀ a b c, cmpLE cmp a b → cmpLE cmp b c → cmpLE cmp a c) (l : List α) :
    List.Sorted (cmpLE cmp) (sortModel cmp l) := by
  letI : IsTotal α (cmpLE cmp) := by
    constructor
    intro a b
    by_cases h : cmp a b = Ordering.gt
    · right
      intro hcon
      rw [hswap a b, hcon] at h
      exact absurd h (by decide)
    · left
      exact h
  letI : IsTrans α (cmpLE cmp) := ⟨htrans⟩
  exact List.sorted_insertionSort _ l

theorem sortModel_idem {α : Type} (cmp : α → α → Ordering)
    (hswap : ∀ a b, cmp a b = (cmp b a).swap)
    (htrans : ∀ a b c, cmpLE cmp a b → cmpLE cmp b c → cmpLE cmp a c) (l : List α) :
    sortModel cmp (sortModel cmp l) = sortModel cmp l :=
  (sortModel_sorted cmp hswap htrans l).insertionSort_eq

theorem oInsert_total_eq {α : Type} (cmp : α → α → Option Ordering) (tc : α → α → Ordering)
    (x : α) (s : List α) (h : ∀ b ∈ s, cmp x b = some (tc x b)) :
    oInsert cmp x s = some (s.orderedInsert (cmpLE tc) x) := by
  induction s with
  | nil => rfl
  | cons y ys ih =>
    rw [oInsert, h y (List.mem_cons_self y ys)]
    rcases htc : tc x y with _ | _ | _
    · rw [List.orderedInsert, if_pos (by simp [cmpLE, htc])]
    · rw [List.orderedInsert, if_pos (by simp [cmpLE, htc])]
    · show (oInsert cmp x ys).map (fun l => y :: l)
          = some ((y :: ys).orderedInsert (cmpLE tc) x)
      rw [ih (fun b hb => h b (List.mem_cons_of_mem y hb)), List.orderedInsert,
        if_neg (by simp [cmpLE, htc])]
      rfl

theorem oSort_total_eq {α : Type} (cmp : α → α → Option Ordering) (tc : α → α → Ordering)
    (l : List α) (h : ∀ a ∈ l, ∀ b ∈ l, cmp a b = some (tc a b)) :
    oSort cmp l = some (sortModel tc l) := by
  induction l with
  | nil => rfl
  | cons x xs ih =>
    rw [oSort,
      ih (fun a ha b hb => h a (List.mem_cons_of_mem x ha) b (List.mem_cons_of_mem x hb))]
    show oInsert cmp x (sortModel tc xs) = some (sortModel tc (x :: xs))
    have hmem : ∀ b ∈ sortModel tc xs, cmp x b = some (tc x b) := by
      intro b hb
      have hb2 : b ∈ xs := (List.perm_insertionSort (cmpLE tc) xs).mem_iff.mp hb
      exact h x (List.mem_cons_self x xs) b (List.mem_cons_of_mem x hb2)
    rw [oInsert_total_eq cmp tc x (sortModel tc xs) hmem]
    rfl

/-- C6 (amended to snapshots with no NaN cpu value when sorting by the
Cpu field; infinities stay in scope, `partial_cmp` being defined on them):
the sort stage produces (without faulting) the stable reference sort of
the snapshot, which is monotonic under the field's comparator, a
permutation of the input, stable (any chain of equal-key samples keeps
its input order), idempotent, and the descending comparator is the exact
argument-flip of the ascending one; the concrete memory example sorts to
pid order [2,1,3] ascending and [3,1,2] descending. -/
theorem sort_monotonic_stable (f : SortField) (ord : SortOrder) (ps : List ProcessInfo)
    (hfin : f = SortField.CPU → ∀ p ∈ ps, p.cpu_usage ≠ F32.nan) :
    applySort f ord ps = some (sortModel (totCmp f ord) ps) ∧
    List.Sorted (cmpLE (totCmp f ord)) (sortModel (totCmp f ord) ps) ∧
    List.Perm (sortModel (totCmp f ord) ps) ps ∧
    (∀ c : List ProcessInfo, List.Sublist c ps →
        c.Pairwise (fun a b => totCmp f ord a b = Ordering.eq) →
        List.Sublist c (sortModel (totCmp f ord) ps)) ∧
    sortModel (totCmp f ord) (sortModel (totCmp f ord) ps) = sortModel (totCmp f ord) ps ∧
    (∀ a b : ProcessInfo,
        sortCmp f SortOrder.Descending a b = sortCmp f SortOrder.Ascending b a) ∧
    (applySort SortField.Memory SortOrder.Ascending
        [⟨3, [], F32.finite 0, 200, []⟩, ⟨1, [], F32.finite 0, 100, []⟩,
          ⟨2, [], F32.finite 0, 50, []⟩]).map (List.map ProcessInfo.pid)
      = some [2, 1, 3] ∧
    (applySort SortField.Memory SortOrder.Descending
        [⟨3, [], F32.finite 0, 200, []⟩, ⟨1, [], F32.finite 0, 100, []⟩,
          ⟨2, [], F32.finite 0, 50, []⟩]).map (List.map ProcessInfo.pid)
      = some [3, 1, 2] := by
  have hswap := totCmp_swap f ord
  have htrans := totCmp_trans f ord
  refine ⟨?_, sortModel_sorted _ hswap htrans ps, List.perm_insertionSort _ ps, ?_,
    sortModel_idem _ hswap htrans ps, sortCmp_desc_flip f, by decide, by decide⟩
  · exact oSort_total_eq _ _ ps (fun a ha b hb =>
      sortCmp_eq_totCmp f ord a b (fun hf => hfin hf a ha) (fun hf => hfin hf b hb))
  · intro c hsub hchain
    exact List.sublist_insertionSort
      (hchain.imp (fun hab => by simp [cmpLE, hab])) hsub

/-- C6 witness: the concrete memory-field snapshot satisfies the
finiteness hypothesis trivially and sorts to the reference sort. -/
theorem sort_monotonic_stable_witness :
    applySort SortField.Memory SortOrder.Ascending
        [⟨3, [], F32.finite 0, 200, []⟩, ⟨1, [], F32.finite 0, 100, []⟩,
          ⟨2, [], F32.finite 0, 50, []⟩]
      = some (sortModel (totCmp SortField.Memory SortOrder.Ascending)
        [⟨3, [], F32.finite 0, 200, []⟩, ⟨1, [], F32.finite 0, 100, []⟩,
          ⟨2, [], F32.finite 0, 50, []⟩]) :=
  (sort_monotonic_stable SortField.Memory SortOrder.Ascending _
    (fun hf => nomatch hf)).1

/-! ### Filtering -/

theorem substr_nil (s : List Char) : substr [] s = true := by
  cases s <;> simp [substr, List.isPrefixOf]

theorem digitChar_toLower (d : Nat) (hd : d < 10) :
    (digitChar d).toLower = digitChar d := by
  interval_cases d <;> decide

theorem natChars_all_digits (n : Nat) : ∀ c ∈ natChars n, ∃ d, d < 10 ∧ c = digitChar d := by
  induction n using Nat.strong_induction_on with
  | _ n ih =>
    rw [natChars.eq_def]
    split
    · next h =>
      intro c hc
      rw [List.mem_singleton] at hc
      exact ⟨n, h, hc⟩
    · next h =>
      intro c hc
      rw [List.mem_append] at hc
      rcases hc with hc | hc
      · exact ih (n / 10) (Nat.div_lt_self (by omega) (by omega)) c hc
      · rw [List.mem_singleton] at hc
        exact ⟨n % 10, Nat.mod_lt n (by omega), hc⟩

theorem map_toLower_of_digits (l : List Char)
    (h : ∀ c ∈ l, ∃ d, d < 10 ∧ c = digitChar d) : l.map Char.toLower = l := by
  induction l with
  | nil => rfl
  | cons c cs ih =>
    obtain ⟨d, hd, rfl⟩ := h c (List.mem_cons_self c cs)
    rw [List.map_cons, digitChar_toLower d hd,
      ih (fun x hx => h x (List.mem_cons_of_mem _ hx))]

/-- Lowercasing a pid's decimal string is the identity: its characters
are digits and possibly a leading minus sign. -/
theorem toLowerStr_intChars (n : Int) : toLowerStr (intChars n) = intChars n := by
  unfold intChars
  split
  · show toLowerStr ('-' :: natChars n.natAbs) = _
    rw [toLowerStr, List.map_cons]
    have hm : ('-').toLower = '-' := by decide
    rw [hm, map_toLower_of_digits _ (natChars_all_digits _)]
  · exact map_toLower_of_digits _ (natChars_all_digits _)

/-- C5: a sample is in the filtered snapshot exactly when it is in the
snapshot and the query is a case-insensitive substring of its pid's
decimal form or of its command name; an absent or empty filter returns
the snapshot unchanged (same length and order). -/
theorem filter_correct (t : List Char) (ps : List ProcessInfo) (p : ProcessInfo) :
    (p ∈ applyFilter (some t) ps ↔
      (p ∈ ps ∧ (substr (toLowerStr t) (toLowerStr (intChars p.pid)) = true ∨
        substr (toLowerStr t) (toLowerStr p.command) = true))) ∧
    applyFilter none ps = ps ∧
    applyFilter (some []) ps = ps := by
  refine ⟨?_, rfl, ?_⟩
  · simp only [applyFilter, List.mem_filter, matchesQuery, Bool.or_eq_true,
      toLowerStr_intChars]
  · show List.filter (matchesQuery (toLowerStr [])) ps = ps
    apply List.filter_eq_self.mpr
    intro a _
    show matchesQuery (toLowerStr []) a = true
    rw [matchesQuery]
    simp [substr_nil, toLowerStr]

end ProcSentry
